import Mathlib

/-!
# Verification of the MetisProtocol/l2geth fee and transaction-ordering core

Shallow embedding of the repository's transaction logic:

* `core/types/transaction.go` (present in the source tree): the `Transaction`
  entity with its mutable `TransactionMeta` side-record, `AsMessage`,
  `SetTransactionMeta`, `Hash`/`Size` memoization, `DecodeRLP`/`UnmarshalJSON`,
  and the `TransactionsByPriceAndNonce` price-and-nonce selector built on Go's
  `container/heap`.
* `rollup/fees` (only its test file is present in the source tree): the fee
  arithmetic `calculateL1GasLimit` / `Ceilmod` / `EncodeTxGasLimit` /
  `DecodeL2GasLimit` and the `PaysEnough` validator are modelled from the
  specification.

Machine integers: all the Go quantities here are `uint64` / non-negative
`*big.Int` (nonces, gas limits, prices) or `*big.Int` signature words; they are
modelled as `Nat` / `Int` since no claim involves wrap-around.  External
collaborators (keccak hashing, RLP byte size, signature recovery, signature
validation) are taken as function parameters, matching the spec's "external
capability" treatment.
-/

/-- A 20-byte account address (`common.Address`), modelled abstractly. -/
structure Address where
  val : Nat
  deriving DecidableEq, Repr

/-- The zero value `common.Address{}`. -/
def Address.zero : Address := ⟨0⟩

/-- `QueueOrigin`: enumeration distinguishing sequencer transactions from
L1-to-L2 deposits.  (The Go declaration lives in `transaction_meta.go`, outside
the provided sources; the two constants used by `transaction.go` are
`QueueOriginSequencer` and `QueueOriginL1ToL2`.) -/
inductive QueueOrigin where
  | sequencer
  | l1ToL2
  deriving DecidableEq, Repr

/-- `TransactionMeta`: the mutable metadata side-record of a transaction.
Field list inferred from its uses in `transaction.go`
(`L1BlockNumber *big.Int`, `L1Timestamp uint64`,
`L1MessageSender *common.Address`, `QueueOrigin QueueOrigin`,
`Index *uint64`, `QueueIndex *uint64`, `RawTransaction []byte`);
nilable pointers become `Option`. -/
structure TransactionMeta where
  L1BlockNumber : Option Int
  L1Timestamp : Nat
  L1MessageSender : Option Address
  QueueOrigin : QueueOrigin
  Index : Option Nat
  QueueIndex : Option Nat
  RawTransaction : List Nat
  deriving DecidableEq, Repr

/-- The immutable core `txdata` of a transaction (`transaction.go`). -/
structure Txdata where
  AccountNonce : Nat
  Price : Int
  GasLimit : Nat
  Recipient : Option Address
  Amount : Int
  Payload : List Nat
  V : Int
  R : Int
  S : Int
  deriving DecidableEq, Repr

/-- `Transaction`: core data, metadata, and the `atomic.Value` caches for the
memoized content hash and encoded size (`hash`, `size` in the Go struct).  The
cache for the recovered sender is owned by the external `Sender` capability and
not needed by any claim. -/
structure Transaction where
  data : Txdata
  meta : TransactionMeta
  hashCache : Option Nat
  sizeCache : Option Nat
  deriving DecidableEq, Repr

/-- `Message`: the fully derived read-only projection built by `AsMessage`.
The Go fields `to` and `from` are reserved words in Lean and are named
`toAddr` and `fromAddr` here. -/
structure Message where
  toAddr : Option Address
  fromAddr : Address
  nonce : Nat
  amount : Int
  gasLimit : Nat
  gasPrice : Int
  data : List Nat
  checkNonce : Bool
  l1Timestamp : Nat
  l1BlockNumber : Option Int
  l1MessageSender : Option Address
  queueOrigin : QueueOrigin
  deriving DecidableEq, Repr

/-! ## FeeMath (`rollup/fees`)

The implementation file of the `rollup/fees` package is not among the provided
sources (only its test file is), so the four functions are modelled from the
specification, section 4.1. -/

/-- Modelled from the spec: `rollup/fees.calculateL1GasLimit` is missing from
the sources; per §4.1, `intrinsicDataCost(payload, overhead) =
overhead + 4 * zeroBytes(payload) + 16 * nonzeroBytes(payload)`. -/
def calculateL1GasLimit (data : List Nat) (overhead : Nat) : Nat :=
  overhead + 4 * (data.countP (· == 0)) + 16 * (data.countP (· != 0))

/-- Modelled from the spec: `rollup/fees.Ceilmod` is missing from the sources;
per §4.1, it returns `a` unchanged if `a` is a multiple of `m`, otherwise the
next multiple of `m` above `a`. -/
def Ceilmod (a m : Nat) : Nat :=
  if a % m = 0 then a else (a / m + 1) * m

/-- Modelled from the spec: `rollup/fees.EncodeTxGasLimit` is missing from the
sources; per §4.1, it rounds the L2 gas limit up to a multiple of 10000 and,
when the L2 gas price is nonzero, adds
`floor(l1GasPrice * intrinsicDataCost(data, overhead) / l2GasPrice)`. -/
def EncodeTxGasLimit (data : List Nat) (l1GasPrice l2GasLimit l2GasPrice overhead : Nat) : Nat :=
  let l1GasLimit := calculateL1GasLimit data overhead
  let l1Fee := l1GasPrice * l1GasLimit
  let roundedL2GasLimit := Ceilmod l2GasLimit 10000
  if l2GasPrice = 0 then
    roundedL2GasLimit
  else
    roundedL2GasLimit + l1Fee / l2GasPrice

/-- Modelled from the spec: `rollup/fees.DecodeL2GasLimit` is missing from the
sources; per §4.1, `decodeGasLimit(encoded) = floor(encoded / 10000) * 10000`. -/
def DecodeL2GasLimit (gasLimit : Nat) : Nat :=
  gasLimit / 10000 * 10000

theorem dvd_Ceilmod (a m : Nat) : m ∣ Ceilmod a m := by
  unfold Ceilmod
  split
  · exact Nat.dvd_of_mod_eq_zero (by assumption)
  · exact ⟨a / m + 1, Nat.mul_comm _ _⟩

theorem DecodeL2GasLimit_mul_add (k e : Nat) (he : e < 10000) :
    DecodeL2GasLimit (10000 * k + e) = 10000 * k := by
  unfold DecodeL2GasLimit
  rw [Nat.mul_add_div (by norm_num), Nat.div_eq_of_lt he, Nat.add_zero, Nat.mul_comm]

/-- The claim C1 round-trip law. -/
theorem DecodeL2GasLimit_EncodeTxGasLimit (data : List Nat)
    (l1GasPrice l2GasLimit l2GasPrice overhead : Nat)
    (h : l2GasPrice = 0 ∨
      l1GasPrice * calculateL1GasLimit data overhead / l2GasPrice < 10000) :
    DecodeL2GasLimit (EncodeTxGasLimit data l1GasPrice l2GasLimit l2GasPrice overhead) =
      Ceilmod l2GasLimit 10000 := by
  obtain ⟨k, hk⟩ := dvd_Ceilmod l2GasLimit 10000
  unfold EncodeTxGasLimit
  by_cases h0 : l2GasPrice = 0
  · simp only [h0, if_pos rfl, hk]
    have := DecodeL2GasLimit_mul_add k 0 (by norm_num)
    simpa using this
  · have hx : l1GasPrice * calculateL1GasLimit data overhead / l2GasPrice < 10000 :=
      h.resolve_left h0
    simp only [if_neg h0, hk]
    exact DecodeL2GasLimit_mul_add k _ hx

/-- Witness for C1 at the "simple" test vector of `TestCalculateRollupFee`:
ten zero payload bytes, gwei prices, `l2GasLimit = 437118`. -/
theorem DecodeL2GasLimit_EncodeTxGasLimit_witness :
    ((1000000000 : Nat) = 0 ∨
      1000000000 * calculateL1GasLimit (List.replicate 10 0) 0 / 1000000000 < 10000) ∧
    DecodeL2GasLimit
        (EncodeTxGasLimit (List.replicate 10 0) 1000000000 437118 1000000000 0) =
      Ceilmod 437118 10000 :=
  ⟨by decide,
   DecodeL2GasLimit_EncodeTxGasLimit (List.replicate 10 0) 1000000000 437118 1000000000 0
     (by decide)⟩

/-! ## FeeValidator (`rollup/fees.PaysEnough`)

The implementation is not among the provided sources (only `TestPaysEnough`
is), so it is modelled from the specification, section 4.2.  The `big.Float`
threshold multipliers are modelled as rationals. -/

/-- `PaysEnoughOpts`: optional user/expected fees and tolerance multipliers.
A `none` is the Go `nil` pointer — the "absent" sentinel, distinct from a
present zero. -/
structure PaysEnoughOpts where
  UserFee : Option Int
  ExpectedFee : Option Int
  ThresholdUp : Option Rat
  ThresholdDown : Option Rat

/-- The fee-validation error taxonomy (`errMissingInput`, `ErrFeeTooLow`,
`ErrFeeTooHigh`). -/
inductive FeeError where
  | missingInput
  | feeTooLow
  | feeTooHigh
  deriving DecidableEq, Repr

/-- The too-high test of §4.2: against `expectedFee * ThresholdUp` when the
threshold is present, exact match otherwise. -/
def feeTooHighCheck (userFee expectedFee : Int) (thresholdUp : Option Rat) : Bool :=
  match thresholdUp with
  | some t => decide ((userFee : Rat) > (expectedFee : Rat) * t)
  | none => decide (userFee > expectedFee)

/-- The too-low test of §4.2: against `expectedFee * ThresholdDown` when the
threshold is present, exact match otherwise. -/
def feeTooLowCheck (userFee expectedFee : Int) (thresholdDown : Option Rat) : Bool :=
  match thresholdDown with
  | some t => decide ((userFee : Rat) < (expectedFee : Rat) * t)
  | none => decide (userFee < expectedFee)

/-- Modelled from the spec: `rollup/fees.PaysEnough` is missing from the
sources; per §4.2 it fails with `missingInput` when either fee is absent,
succeeds on exact equality, otherwise checks the too-high direction first and
then the too-low direction.  `none` is success. -/
def PaysEnough (opts : PaysEnoughOpts) : Option FeeError :=
  match opts.UserFee, opts.ExpectedFee with
  | none, _ => some .missingInput
  | some _, none => some .missingInput
  | some userFee, some expectedFee =>
    if userFee = expectedFee then
      none
    else if feeTooHighCheck userFee expectedFee opts.ThresholdUp then
      some .feeTooHigh
    else if feeTooLowCheck userFee expectedFee opts.ThresholdDown then
      some .feeTooLow
    else
      none

/-- Sanity check: the model agrees with every `TestPaysEnough` vector. -/
theorem PaysEnough_matches_tests :
    PaysEnough ⟨none, some 0, none, none⟩ = some .missingInput ∧
    PaysEnough ⟨none, none, none, none⟩ = some .missingInput ∧
    PaysEnough ⟨some 1, some 1, none, none⟩ = none ∧
    PaysEnough ⟨some 1, some 2, none, none⟩ = some .feeTooLow ∧
    PaysEnough ⟨some 1, some 2, none, some (1/2)⟩ = none ∧
    PaysEnough ⟨some 256, some 1, some (3/2), none⟩ = some .feeTooHigh ∧
    PaysEnough ⟨some 10000, some 1, some 3, some (4/5)⟩ = some .feeTooHigh ∧
    PaysEnough ⟨some 1, some 10000, some 3, some (4/5)⟩ = some .feeTooLow ∧
    PaysEnough ⟨some 0, some 10000, some 3, some (4/5)⟩ = some .feeTooLow := by
  norm_num [PaysEnough, feeTooHighCheck, feeTooLowCheck]

/-- The claim C5 characterization of `missingInput`: only the absent sentinel
triggers it; any present fee (zero included) never does. -/
theorem PaysEnough_missingInput_iff (opts : PaysEnoughOpts) :
    PaysEnough opts = some .missingInput ↔
      (opts.UserFee = none ∨ opts.ExpectedFee = none) := by
  constructor
  · intro h
    unfold PaysEnough at h
    rcases hu : opts.UserFee with _ | uf
    · exact Or.inl rfl
    · rcases he : opts.ExpectedFee with _ | ef
      · exact Or.inr rfl
      · rw [hu, he] at h
        simp only [] at h
        by_cases heq : uf = ef
        · simp [heq] at h
        · rw [if_neg heq] at h
          by_cases h1 : feeTooHighCheck uf ef opts.ThresholdUp = true
          · rw [if_pos h1] at h; cases h
          · rw [if_neg h1] at h
            by_cases h2 : feeTooLowCheck uf ef opts.ThresholdDown = true
            · rw [if_pos h2] at h; cases h
            · rw [if_neg h2] at h; cases h
  · intro h
    unfold PaysEnough
    rcases hu : opts.UserFee with _ | uf
    · rfl
    · rcases he : opts.ExpectedFee with _ | ef
      · rfl
      · rcases h with h | h
        · rw [hu] at h; cases h
        · rw [he] at h; cases h

/-! ## TransactionRecord / MessageDeriver (`core/types/transaction.go`)

`AsMessage` reads the configured bridge address from the environment
(`os.Getenv("ETH1_L1_CROSS_DOMAIN_MESSENGER_ADDRESS")`) and resolves the
sender through the external `Sender` capability; both are parameters here.
-/

/-- An error from the external sender-recovery capability. -/
structure SigErr where
  code : Nat
  deriving DecidableEq, Repr

/-- `Transaction.SetTransactionMeta`: replace the metadata wholesale; a nil
argument is a no-op. -/
def Transaction.SetTransactionMeta (tx : Transaction) (meta : Option TransactionMeta) :
    Transaction :=
  match meta with
  | none => tx
  | some m => { tx with meta := m }

/-- The metadata-resolution branch at the top of `AsMessage`: a transaction
with `V = 0` is an L1 message and gets all metadata fields forced (`Index` and
`QueueIndex` are overwritten with 0 unconditionally in this branch); any other
transaction is sequencer-originated and keeps `L1Timestamp`,
`L1MessageSender`, and any present `Index`/`QueueIndex`.  (The Go guard
`if &txMeta.L1Timestamp == nil` compares a field address against nil and is
never true, so `L1Timestamp` is simply kept.) -/
def Transaction.resolveMeta (l1XDomainMessenger : Address) (tx : Transaction) :
    TransactionMeta :=
  if tx.data.V = 0 then
    { L1BlockNumber := some 0
      L1Timestamp := 0
      L1MessageSender := some l1XDomainMessenger
      QueueOrigin := .l1ToL2
      Index := some 0
      QueueIndex := some 0
      RawTransaction := tx.data.Payload }
  else
    { L1BlockNumber := some 0
      L1Timestamp := tx.meta.L1Timestamp
      L1MessageSender := tx.meta.L1MessageSender
      QueueOrigin := .sequencer
      Index := some (tx.meta.Index.getD 0)
      QueueIndex := some (tx.meta.QueueIndex.getD 0)
      RawTransaction := tx.data.Payload }

/-- `Transaction.AsMessage`: resolve the metadata branch, store it back into
the record (`tx.SetTransactionMeta(txMeta)` — observable mutation), build the
`Message` from the core fields and the resolved metadata, resolve the sender
through `s` (zero address on failure, matching `Sender`'s error return), fix
up an absent `l1MessageSender` to the zero address, and return the message
together with the propagated recovery error. -/
def Transaction.AsMessage (l1XDomainMessenger : Address)
    (s : Transaction → Except SigErr Address) (tx : Transaction) :
    Transaction × Message × Option SigErr :=
  let txMeta := tx.resolveMeta l1XDomainMessenger
  let tx' := tx.SetTransactionMeta (some txMeta)
  let senderResult := s tx'
  let msg : Message :=
    { toAddr := tx.data.Recipient
      fromAddr := match senderResult with | .ok a => a | .error _ => Address.zero
      nonce := tx.data.AccountNonce
      amount := tx.data.Amount
      gasLimit := tx.data.GasLimit
      gasPrice := tx.data.Price
      data := tx.data.Payload
      checkNonce := true
      l1Timestamp := txMeta.L1Timestamp
      l1BlockNumber := txMeta.L1BlockNumber
      l1MessageSender := match txMeta.L1MessageSender with
                         | some a => some a
                         | none => some Address.zero
      queueOrigin := txMeta.QueueOrigin }
  (tx', msg, match senderResult with | .ok _ => none | .error e => some e)

/-- Claim C3: a `V = 0` transaction gets the forced L1 metadata and its
message is `l1ToL2`-origined with a present `l1MessageSender`; a `V ≠ 0`
transaction's message is sequencer-origined. -/
theorem AsMessage_origin_branches (l1 : Address) (s : Transaction → Except SigErr Address)
    (tx : Transaction) :
    (tx.data.V = 0 →
      (tx.AsMessage l1 s).1.meta.L1BlockNumber = some 0 ∧
      (tx.AsMessage l1 s).1.meta.L1Timestamp = 0 ∧
      (tx.AsMessage l1 s).1.meta.L1MessageSender = some l1 ∧
      (tx.AsMessage l1 s).1.meta.QueueOrigin = .l1ToL2 ∧
      (tx.meta.Index = none → (tx.AsMessage l1 s).1.meta.Index = some 0) ∧
      (tx.meta.QueueIndex = none → (tx.AsMessage l1 s).1.meta.QueueIndex = some 0) ∧
      (tx.AsMessage l1 s).1.meta.RawTransaction = tx.data.Payload ∧
      (tx.AsMessage l1 s).2.1.queueOrigin = .l1ToL2 ∧
      ((tx.AsMessage l1 s).2.1.l1MessageSender).isSome = true) ∧
    (tx.data.V ≠ 0 → (tx.AsMessage l1 s).2.1.queueOrigin = .sequencer) := by
  constructor
  · intro h
    simp [Transaction.AsMessage, Transaction.resolveMeta, Transaction.SetTransactionMeta, h]
  · intro h
    simp [Transaction.AsMessage, Transaction.resolveMeta, Transaction.SetTransactionMeta, h]

/-- Witness for C3: a deposit-style transaction (`V = 0`, all metadata absent)
and a signed one (`V = 28`). -/
theorem AsMessage_origin_branches_witness :
    letI d0 : Txdata := ⟨0, 0, 0, none, 0, [7], 0, 0, 0⟩
    letI m0 : TransactionMeta := ⟨none, 0, none, .sequencer, none, none, []⟩
    letI tx0 : Transaction := ⟨d0, m0, none, none⟩
    letI tx1 : Transaction := ⟨{ d0 with V := 28 }, m0, none, none⟩
    letI sg : Transaction → Except SigErr Address := fun _ => .ok ⟨9⟩
    (tx0.AsMessage ⟨3⟩ sg).1.meta.QueueOrigin = .l1ToL2 ∧
    (tx0.AsMessage ⟨3⟩ sg).2.1.queueOrigin = .l1ToL2 ∧
    ((tx0.AsMessage ⟨3⟩ sg).2.1.l1MessageSender).isSome = true ∧
    (tx1.AsMessage ⟨3⟩ sg).2.1.queueOrigin = .sequencer := by
  refine ⟨?_, ?_, ?_, ?_⟩
  · exact ((AsMessage_origin_branches ⟨3⟩ _ _).1 rfl).2.2.2.1
  · exact ((AsMessage_origin_branches ⟨3⟩ _ _).1 rfl).2.2.2.2.2.2.2.1
  · exact ((AsMessage_origin_branches ⟨3⟩ _ _).1 rfl).2.2.2.2.2.2.2.2
  · exact (AsMessage_origin_branches ⟨3⟩ _ _).2 (by decide)

/-- Claim C4: when sender recovery fails, `AsMessage` still returns the fully
constructed message (with the zero sender), the record's metadata has been
replaced by the branch result, and the error is propagated. -/
theorem AsMessage_error_still_constructs (l1 : Address)
    (s : Transaction → Except SigErr Address) (tx : Transaction) (e : SigErr)
    (h : s (tx.SetTransactionMeta (some (tx.resolveMeta l1))) = .error e) :
    (tx.AsMessage l1 s).2.2 = some e ∧
    (tx.AsMessage l1 s).1.meta = tx.resolveMeta l1 ∧
    (tx.AsMessage l1 s).2.1 =
      { toAddr := tx.data.Recipient
        fromAddr := Address.zero
        nonce := tx.data.AccountNonce
        amount := tx.data.Amount
        gasLimit := tx.data.GasLimit
        gasPrice := tx.data.Price
        data := tx.data.Payload
        checkNonce := true
        l1Timestamp := (tx.resolveMeta l1).L1Timestamp
        l1BlockNumber := (tx.resolveMeta l1).L1BlockNumber
        l1MessageSender := some ((tx.resolveMeta l1).L1MessageSender.getD Address.zero)
        queueOrigin := (tx.resolveMeta l1).QueueOrigin } := by
  refine ⟨?_, ?_, ?_⟩
  · simp [Transaction.AsMessage, h]
  · simp [Transaction.AsMessage, Transaction.SetTransactionMeta]
  · simp only [Transaction.AsMessage, h]
    cases hm : (tx.resolveMeta l1).L1MessageSender <;> simp [hm]

/-- Witness for C4: an always-failing recovery capability. -/
theorem AsMessage_error_still_constructs_witness :
    letI d0 : Txdata := ⟨5, 2, 100, some ⟨8⟩, 1, [1, 0], 28, 4, 4⟩
    letI m0 : TransactionMeta := ⟨none, 77, none, .sequencer, none, none, []⟩
    letI tx0 : Transaction := ⟨d0, m0, none, none⟩
    letI sg : Transaction → Except SigErr Address := fun _ => .error ⟨3⟩
    (tx0.AsMessage ⟨3⟩ sg).2.2 = some ⟨3⟩ ∧
    (tx0.AsMessage ⟨3⟩ sg).1.meta = tx0.resolveMeta ⟨3⟩ := by
  refine ⟨?_, ?_⟩
  · exact (AsMessage_error_still_constructs ⟨3⟩ _ _ ⟨3⟩ rfl).1
  · exact (AsMessage_error_still_constructs ⟨3⟩ _ _ ⟨3⟩ rfl).2.1

/-- Claim C9: every message produced by `AsMessage` carries a present
`l1MessageSender`, and when the resolved metadata's sender is absent the
message's field is specifically the zero address. -/
theorem AsMessage_l1MessageSender_present (l1 : Address)
    (s : Transaction → Except SigErr Address) (tx : Transaction) :
    ((tx.AsMessage l1 s).2.1.l1MessageSender).isSome = true ∧
    ((tx.AsMessage l1 s).1.meta.L1MessageSender = none →
      (tx.AsMessage l1 s).2.1.l1MessageSender = some Address.zero) := by
  have hmeta : (tx.AsMessage l1 s).1.meta = tx.resolveMeta l1 := by
    simp [Transaction.AsMessage, Transaction.SetTransactionMeta]
  constructor
  · simp only [Transaction.AsMessage]
    cases hm : (tx.resolveMeta l1).L1MessageSender <;> simp [hm]
  · intro h
    rw [hmeta] at h
    simp only [Transaction.AsMessage, h]

/-- Witness for C9: a sequencer transaction whose metadata has no
`L1MessageSender`; the message's field is the zero address. -/
theorem AsMessage_l1MessageSender_present_witness :
    letI d0 : Txdata := ⟨5, 2, 100, none, 1, [], 27, 4, 4⟩
    letI m0 : TransactionMeta := ⟨none, 0, none, .sequencer, none, none, []⟩
    letI tx0 : Transaction := ⟨d0, m0, none, none⟩
    letI sg : Transaction → Except SigErr Address := fun _ => .ok ⟨9⟩
    ((tx0.AsMessage ⟨3⟩ sg).2.1.l1MessageSender).isSome = true ∧
    (tx0.AsMessage ⟨3⟩ sg).2.1.l1MessageSender = some Address.zero := by
  refine ⟨(AsMessage_l1MessageSender_present ⟨3⟩ _ _).1, ?_⟩
  exact (AsMessage_l1MessageSender_present ⟨3⟩ _ _).2 (by decide)

/-! ## Wire decode paths (`DecodeRLP`, `UnmarshalJSON`)

The underlying codecs (`rlp.Stream.Decode`, `txdata.UnmarshalJSON`) and the
`crypto.ValidateSignatureValues` predicate are external; they enter as the
already-decoded result and as a boolean predicate on the decoded core fields
(the Go code normalizes `V` before the call — a pure function of the decoded
data, so it is absorbed into the predicate). -/

/-- Errors surfaced by `UnmarshalJSON`: `ErrInvalidSig` or an error of the
underlying JSON codec. -/
inductive DecodeError where
  | invalidSig
  | delegate (code : Nat)
  deriving DecidableEq, Repr

/-- `Transaction.UnmarshalJSON`: delegate, then — only when the decoded
signature triple is not all-zero — require `validateSignatureValues`,
failing with `ErrInvalidSig` otherwise. -/
def Transaction.UnmarshalJSON (validateSignatureValues : Txdata → Bool)
    (tx : Transaction) (decoded : Except Nat Txdata) : Except DecodeError Transaction :=
  match decoded with
  | .error e => .error (.delegate e)
  | .ok d =>
    let withSignature := d.V != 0 || d.R != 0 || d.S != 0
    if withSignature && !(validateSignatureValues d) then
      .error .invalidSig
    else
      .ok { tx with data := d }

/-- `Transaction.DecodeRLP`: pure delegation to the RLP codec; on success the
decoded core fields are stored and the size cache is primed with
`rlp.ListSize(size)`.  No signature validation happens on this path. -/
def Transaction.DecodeRLP (tx : Transaction) (decoded : Except Nat (Txdata × Nat)) :
    Except Nat Transaction :=
  match decoded with
  | .error e => .error e
  | .ok (d, listSize) => .ok { tx with data := d, sizeCache := some listSize }

/-- Counterexample to claim C7 as stated: with a non-zero signature triple
that fails every `validateSignatureValues` predicate, the JSON path rejects
with `ErrInvalidSig` but the RLP decode path succeeds — `DecodeRLP` performs
no signature validation at all. -/
theorem DecodeRLP_skips_signature_validation :
    letI d0 : Txdata := ⟨0, 0, 0, none, 0, [], 1, 1, 1⟩
    letI m0 : TransactionMeta := ⟨none, 0, none, .sequencer, none, none, []⟩
    letI tx0 : Transaction := ⟨⟨0, 0, 0, none, 0, [], 0, 0, 0⟩, m0, none, none⟩
    Transaction.UnmarshalJSON (fun _ => false) tx0 (.ok d0) = .error .invalidSig ∧
    tx0.DecodeRLP (.ok (d0, 3)) =
      .ok { tx0 with data := d0, sizeCache := some 3 } := by
  exact ⟨rfl, rfl⟩

/-- Claim C7 amended to the code: the signature gate exists only on the JSON
path — a non-zero triple must pass `validateSignatureValues` or
`UnmarshalJSON` fails with `ErrInvalidSig`, an all-zero triple skips the
check, and `DecodeRLP` succeeds whenever the RLP delegate does, with no
signature check. -/
theorem decode_signature_validation (validateSignatureValues : Txdata → Bool)
    (tx : Transaction) (d : Txdata) (listSize : Nat) :
    (¬(d.V = 0 ∧ d.R = 0 ∧ d.S = 0) → validateSignatureValues d = false →
      Transaction.UnmarshalJSON validateSignatureValues tx (.ok d) = .error .invalidSig) ∧
    (¬(d.V = 0 ∧ d.R = 0 ∧ d.S = 0) → validateSignatureValues d = true →
      Transaction.UnmarshalJSON validateSignatureValues tx (.ok d) =
        .ok { tx with data := d }) ∧
    (d.V = 0 ∧ d.R = 0 ∧ d.S = 0 →
      Transaction.UnmarshalJSON validateSignatureValues tx (.ok d) =
        .ok { tx with data := d }) ∧
    tx.DecodeRLP (.ok (d, listSize)) =
      .ok { tx with data := d, sizeCache := some listSize } := by
  refine ⟨?_, ?_, ?_, rfl⟩
  · intro h hv
    have hw : (d.V != 0 || d.R != 0 || d.S != 0) = true := by
      rcases not_and_or.mp h with h1 | h2
      · simp [h1]
      · rcases not_and_or.mp h2 with h2 | h3
        · simp [h2]
        · simp [h3]
    simp [Transaction.UnmarshalJSON, hw, hv]
  · intro h hv
    simp [Transaction.UnmarshalJSON, hv]
  · intro h
    simp [Transaction.UnmarshalJSON, h.1, h.2.1, h.2.2]

/-- Witness for the amended C7 at concrete inputs on all three JSON branches
and the RLP branch. -/
theorem decode_signature_validation_witness :
    letI dSig : Txdata := ⟨0, 0, 0, none, 0, [], 27, 5, 5⟩
    letI dZero : Txdata := ⟨0, 0, 0, none, 0, [], 0, 0, 0⟩
    letI m0 : TransactionMeta := ⟨none, 0, none, .sequencer, none, none, []⟩
    letI tx0 : Transaction := ⟨dZero, m0, none, none⟩
    Transaction.UnmarshalJSON (fun _ => false) tx0 (.ok dSig) = .error .invalidSig ∧
    Transaction.UnmarshalJSON (fun _ => true) tx0 (.ok dSig) = .ok { tx0 with data := dSig } ∧
    Transaction.UnmarshalJSON (fun _ => false) tx0 (.ok dZero) = .ok { tx0 with data := dZero } ∧
    tx0.DecodeRLP (.ok (dSig, 9)) = .ok { tx0 with data := dSig, sizeCache := some 9 } := by
  refine ⟨?_, ?_, ?_, ?_⟩
  · exact (decode_signature_validation (fun _ => false) _ _ 9).1 (by decide) rfl
  · exact (decode_signature_validation (fun _ => true) _ _ 9).2.1 (by decide) rfl
  · exact (decode_signature_validation (fun _ => false) _ _ 9).2.2.1 (by decide)
  · exact (decode_signature_validation (fun _ => false) _ _ 9).2.2.2

/-! ## Hash / Size memoization (`Transaction.Hash`, `Transaction.Size`)

`rlpHash(tx)` keccak-hashes the transaction's RLP encoding; since
`Transaction.EncodeRLP` writes exactly `&tx.data`, the hash is an external
function of the core fields alone.  Likewise `Size` measures the RLP encoding
of `&tx.data`.  Both enter as parameters.  A method call returns the value
together with the possibly updated record (the `atomic.Value` store). -/

/-- `Transaction.Hash`: return the cached hash, or compute, store, return. -/
def Transaction.Hash (rlpHash : Txdata → Nat) (tx : Transaction) : Nat × Transaction :=
  match tx.hashCache with
  | some h => (h, tx)
  | none => (rlpHash tx.data, { tx with hashCache := some (rlpHash tx.data) })

/-- `Transaction.Size`: return the cached size, or measure the RLP encoding
of the core fields, store, return. -/
def Transaction.Size (encodedSize : Txdata → Nat) (tx : Transaction) : Nat × Transaction :=
  match tx.sizeCache with
  | some s => (s, tx)
  | none => (encodedSize tx.data, { tx with sizeCache := some (encodedSize tx.data) })

/-- The hash cache is either unset or holds the memoized computed value —
true of every record the code produces, since only `Transaction.Hash` ever
stores it. -/
def HashCacheConsistent (rlpHash : Txdata → Nat) (tx : Transaction) : Prop :=
  tx.hashCache = none ∨ tx.hashCache = some (rlpHash tx.data)

/-- The size cache is either unset or holds the size of the core encoding
(stored by `Size` or by `DecodeRLP` from the decoded stream). -/
def SizeCacheConsistent (encodedSize : Txdata → Nat) (tx : Transaction) : Prop :=
  tx.sizeCache = none ∨ tx.sizeCache = some (encodedSize tx.data)

/-- Claim C8: `Hash` and `Size` depend on the core `txdata` only — two
records with equal core fields agree on both, whatever their metadata;
metadata mutation (`SetTransactionMeta`, `AsMessage`) never changes either;
and a repeated call returns the memoized first result. -/
theorem Hash_Size_core_only (rlpHash encodedSize : Txdata → Nat)
    (tx1 tx2 : Transaction) (hdata : tx1.data = tx2.data)
    (h1 : HashCacheConsistent rlpHash tx1) (h2 : HashCacheConsistent rlpHash tx2)
    (s1 : SizeCacheConsistent encodedSize tx1) (s2 : SizeCacheConsistent encodedSize tx2) :
    ((tx1.Hash rlpHash).1 = (tx2.Hash rlpHash).1 ∧
      (tx1.Size encodedSize).1 = (tx2.Size encodedSize).1) ∧
    (∀ m : Option TransactionMeta,
      ((tx1.SetTransactionMeta m).Hash rlpHash).1 = (tx1.Hash rlpHash).1 ∧
      ((tx1.SetTransactionMeta m).Size encodedSize).1 = (tx1.Size encodedSize).1) ∧
    (∀ (l1 : Address) (sg : Transaction → Except SigErr Address),
      (((tx1.AsMessage l1 sg).1).Hash rlpHash).1 = (tx1.Hash rlpHash).1 ∧
      (((tx1.AsMessage l1 sg).1).Size encodedSize).1 = (tx1.Size encodedSize).1) ∧
    (((tx1.Hash rlpHash).2.Hash rlpHash) =
        ((tx1.Hash rlpHash).1, (tx1.Hash rlpHash).2) ∧
      ((tx1.Size encodedSize).2.Size encodedSize) =
        ((tx1.Size encodedSize).1, (tx1.Size encodedSize).2)) := by
  have hashVal : ∀ tx : Transaction, HashCacheConsistent rlpHash tx →
      (tx.Hash rlpHash).1 = rlpHash tx.data := by
    intro tx h
    rcases h with h | h <;> simp [Transaction.Hash, h]
  have sizeVal : ∀ tx : Transaction, SizeCacheConsistent encodedSize tx →
      (tx.Size encodedSize).1 = encodedSize tx.data := by
    intro tx h
    rcases h with h | h <;> simp [Transaction.Size, h]
  have metaKeep : ∀ (tx : Transaction) (m : Option TransactionMeta),
      (tx.SetTransactionMeta m).data = tx.data ∧
      (tx.SetTransactionMeta m).hashCache = tx.hashCache ∧
      (tx.SetTransactionMeta m).sizeCache = tx.sizeCache := by
    intro tx m
    cases m <;> simp [Transaction.SetTransactionMeta]
  have asMsgKeep : ∀ (tx : Transaction) (l1 : Address)
      (sg : Transaction → Except SigErr Address),
      ((tx.AsMessage l1 sg).1).data = tx.data ∧
      ((tx.AsMessage l1 sg).1).hashCache = tx.hashCache ∧
      ((tx.AsMessage l1 sg).1).sizeCache = tx.sizeCache := by
    intro tx l1 sg
    simp [Transaction.AsMessage, Transaction.SetTransactionMeta]
  refine ⟨⟨?_, ?_⟩, ?_, ?_, ?_, ?_⟩
  · rw [hashVal tx1 h1, hashVal tx2 h2, hdata]
  · rw [sizeVal tx1 s1, sizeVal tx2 s2, hdata]
  · intro m
    obtain ⟨hd, hh, hs⟩ := metaKeep tx1 m
    constructor
    · rw [hashVal _ (by unfold HashCacheConsistent; rw [hd, hh]; exact h1),
        hashVal tx1 h1, hd]
    · rw [sizeVal _ (by unfold SizeCacheConsistent; rw [hd, hs]; exact s1),
        sizeVal tx1 s1, hd]
  · intro l1 sg
    obtain ⟨hd, hh, hs⟩ := asMsgKeep tx1 l1 sg
    constructor
    · rw [hashVal _ (by unfold HashCacheConsistent; rw [hd, hh]; exact h1),
        hashVal tx1 h1, hd]
    · rw [sizeVal _ (by unfold SizeCacheConsistent; rw [hd, hs]; exact s1),
        sizeVal tx1 s1, hd]
  · rcases h1 with h | h <;> simp [Transaction.Hash, h]
  · rcases s1 with h | h <;> simp [Transaction.Size, h]

/-- Witness for C8: equal core fields, different metadata and fresh caches. -/
theorem Hash_Size_core_only_witness :
    letI d0 : Txdata := ⟨5, 2, 100, some ⟨8⟩, 1, [1, 0], 28, 4, 4⟩
    letI mA : TransactionMeta := ⟨none, 0, none, .sequencer, none, none, []⟩
    letI mB : TransactionMeta := ⟨some 3, 9, some ⟨2⟩, .l1ToL2, some 1, some 1, [5]⟩
    letI txA : Transaction := ⟨d0, mA, none, none⟩
    letI txB : Transaction := ⟨d0, mB, none, none⟩
    letI H : Txdata → Nat := fun d => d.AccountNonce + 7
    letI SZ : Txdata → Nat := fun d => d.Payload.length + 1
    (txA.Hash H).1 = (txB.Hash H).1 ∧ (txA.Size SZ).1 = (txB.Size SZ).1 := by
  exact (Hash_Size_core_only _ _ _ _ rfl (Or.inl rfl) (Or.inl rfl) (Or.inl rfl)
    (Or.inl rfl)).1

/-! ## PriceNonceSelector (`TransactionsByPriceAndNonce`)

`transaction.go` drives Go's `container/heap` over `TxByPrice`
(`Less i j = Price[i] > Price[j]`, `Swap`, slice `Push`/`Pop`).  The heap
algorithms (`down`, `up`, `Init`, `Fix`, `Pop` of `container/heap`) are
embedded verbatim over `List Transaction`.  The loops are written with a fuel
argument to keep them kernel-reducible; the fuel is always sufficient: each
`down` iteration requires `2*i+1 < n` and continues at `j ≥ 2*i+1 ≥ i+1`, so
fewer than `n` iterations can happen, and each `up` iteration strictly
decreases `j`, so fewer than `j+1` iterations can happen. -/

/-- `TxByPrice.Less`: strictly greater gas price first. -/
def txLess (l : List Transaction) (i j : Nat) : Bool :=
  match l[i]?, l[j]? with
  | some a, some b => decide (a.data.Price > b.data.Price)
  | _, _ => false

/-- `Swap(i, j)` on a slice. -/
def lswap {α : Type} (l : List α) (i j : Nat) : List α :=
  match l[i]?, l[j]? with
  | some a, some b => (l.set i b).set j a
  | _, _ => l

/-- The child index chosen by `container/heap.down`: the right child
`2*i+2` when it exists and compares `Less` than the left child `2*i+1`,
otherwise the left child. -/
def heapDownChild (l : List Transaction) (i n : Nat) : Nat :=
  if 2 * i + 2 < n && txLess l (2 * i + 2) (2 * i + 1) then 2 * i + 2 else 2 * i + 1

/-- The loop of `container/heap.down` restricted to the first `n` entries;
returns the final index alongside the list. -/
def heapDownGo (l : List Transaction) (i n fuel : Nat) : List Transaction × Nat :=
  match fuel with
  | 0 => (l, i)
  | fuel + 1 =>
    if 2 * i + 1 < n then
      if txLess l (heapDownChild l i n) i then
        heapDownGo (lswap l i (heapDownChild l i n)) (heapDownChild l i n) n fuel
      else (l, i)
    else (l, i)

/-- `container/heap.down(h, i0, n)`: sift down; reports whether the element
moved (`i > i0`). -/
def heapDown (l : List Transaction) (i0 n : Nat) : List Transaction × Bool :=
  let r := heapDownGo l i0 n n
  (r.1, decide (r.2 > i0))

/-- The loop of `container/heap.up`; the parent of `j` is `(j-1)/2`. -/
def heapUpGo (l : List Transaction) (j fuel : Nat) : List Transaction :=
  match fuel with
  | 0 => l
  | fuel + 1 =>
    if (j - 1) / 2 = j || !txLess l j ((j - 1) / 2) then l
    else heapUpGo (lswap l ((j - 1) / 2) j) ((j - 1) / 2) fuel

/-- `container/heap.up(h, j)`. -/
def heapUp (l : List Transaction) (j : Nat) : List Transaction :=
  heapUpGo l j (j + 1)

/-- The descending loop of `container/heap.Init`: sift down at
`i = n/2 - 1, …, 0`. -/
def heapInitAux (n : Nat) : Nat → List Transaction → List Transaction
  | 0, l => l
  | k + 1, l => heapInitAux n k (heapDown l k n).1

/-- `container/heap.Init`. -/
def heapInit (l : List Transaction) : List Transaction :=
  heapInitAux l.length (l.length / 2) l

/-- `container/heap.Fix(h, i)`: sift down, and sift up when nothing moved
(`up` runs on the slice as left by `down`). -/
def heapFix (l : List Transaction) (i : Nat) : List Transaction :=
  if (heapDown l i l.length).2 then (heapDown l i l.length).1
  else heapUp (heapDown l i l.length).1 i

/-- `container/heap.Pop`: swap the root to the end, sift down over the first
`n-1` entries, slice off and return the old root.  Reached only on non-empty
heaps (on an empty heap Go panics inside `Swap`). -/
def heapPopList (l : List Transaction) : List Transaction × Option Transaction :=
  match l with
  | [] => ([], none)
  | _ :: _ =>
    let n := l.length - 1
    let l1 := lswap l 0 n
    let l2 := (heapDownGo l1 0 n n).1
    (l2.take n, l2[n]?)

/-- First-match association-list lookup, the Go map read `txs[acc]`. -/
def alookup (m : List (Address × List Transaction)) (a : Address) :
    Option (List Transaction) :=
  match m with
  | [] => none
  | p :: rest => if p.1 = a then some p.2 else alookup rest a

/-- The Go map write `txs[acc] = v`: replace the value at an existing key,
append the key otherwise. -/
def ainsert (m : List (Address × List Transaction)) (a : Address)
    (v : List Transaction) : List (Address × List Transaction) :=
  match m with
  | [] => [(a, v)]
  | p :: rest => if p.1 = a then (a, v) :: rest else p :: ainsert rest a v

/-- The Go map delete `delete(txs, from)`. -/
def aerase (m : List (Address × List Transaction)) (a : Address) :
    List (Address × List Transaction) :=
  match m with
  | [] => []
  | p :: rest => if p.1 = a then rest else p :: aerase rest a

/-- `TransactionsByPriceAndNonce`: per-account remaining queues plus the
price heap of per-account heads.  The signer capability is carried as an
explicit parameter of the operations instead of a field (it never changes
after construction), and sender recovery enters as a pure
`Transaction → Address` function, its error silently discarded exactly as the
Go code discards it (`acc, _ := Sender(...)`). -/
structure TransactionsByPriceAndNonce where
  txs : List (Address × List Transaction)
  heads : List Transaction
  deriving DecidableEq, Repr

/-- The body of the construction loop of `NewTransactionsByPriceAndNonce` for
one visited key: skip empty or vanished entries; otherwise push the first
transaction onto the pending heads, re-key the remainder under the recovered
sender, and drop the old key if the recovered sender differs. -/
def constructStep (signer : Transaction → Address)
    (st : List (Address × List Transaction) × List Transaction) (key : Address) :
    List (Address × List Transaction) × List Transaction :=
  match alookup st.1 key with
  | none => st
  | some [] => st
  | some (tx0 :: rest) =>
    let acc := signer tx0
    let m1 := ainsert st.1 acc rest
    (if key = acc then m1 else aerase m1 key, st.2 ++ [tx0])

/-- `NewTransactionsByPriceAndNonce`.  Go's map iteration order is
unspecified and may interleave with the loop's own writes; the model commits
to one admissible execution: the original keys are visited in list order,
each entry is re-read from the current map when visited (so earlier
overwrites are seen and earlier deletes skip the entry), and keys first
inserted during the iteration are not visited. -/
def NewTransactionsByPriceAndNonce (signer : Transaction → Address)
    (txs : List (Address × List Transaction)) : TransactionsByPriceAndNonce :=
  let st := txs.foldl (fun st p => constructStep signer st p.1) (txs, [])
  { txs := st.1, heads := heapInit st.2 }

/-- `Peek`: the root of the heap, or nil when empty; no mutation (the state
is not part of the result type). -/
def TransactionsByPriceAndNonce.Peek (t : TransactionsByPriceAndNonce) :
    Option Transaction :=
  t.heads[0]?

/-- `Shift`: read the root's recovered sender, replace the root with that
account's next queued transaction and fix the heap, or pop the root if the
account has none left.  The Go code indexes `t.heads[0]` before any emptiness
check, so the empty heap is a panic, modelled as `none`. -/
def TransactionsByPriceAndNonce.Shift (signer : Transaction → Address)
    (t : TransactionsByPriceAndNonce) : Option TransactionsByPriceAndNonce :=
  match t.heads with
  | [] => none
  | h0 :: _ =>
    let acc := signer h0
    match alookup t.txs acc with
    | some (tx :: rest) =>
      some { txs := ainsert t.txs acc rest, heads := heapFix (t.heads.set 0 tx) 0 }
    | _ => some { t with heads := (heapPopList t.heads).1 }

/-- `Pop`: drop the root without pulling in the account's next transaction
(abandoning the account's whole remaining queue); a panic (`none`) on an
empty heap. -/
def TransactionsByPriceAndNonce.Pop (t : TransactionsByPriceAndNonce) :
    Option TransactionsByPriceAndNonce :=
  match t.heads with
  | [] => none
  | _ :: _ => some { t with heads := (heapPopList t.heads).1 }

/-- A call against the selector: `Shift` or `Pop` (`Peek` does not change the
state). -/
inductive SelOp where
  | shift
  | pop
  deriving DecidableEq, Repr

/-- Apply one call; `none` is a Go panic. -/
def applyOp (signer : Transaction → Address) (t : TransactionsByPriceAndNonce) :
    SelOp → Option TransactionsByPriceAndNonce
  | .shift => t.Shift signer
  | .pop => t.Pop

/-- Run a call sequence. -/
def runOps (signer : Transaction → Address) (t : TransactionsByPriceAndNonce) :
    List SelOp → Option TransactionsByPriceAndNonce
  | [] => some t
  | op :: ops =>
    match applyOp signer t op with
    | none => none
    | some t' => runOps signer t' ops

/-! ### The heap operations permute the heap's contents -/

theorem set_self_of_getElem {α : Type} (l : List α) (i : Nat) (a : α)
    (h : l[i]? = some a) : l.set i a = l := by
  induction l generalizing i with
  | nil => simp at h
  | cons x t ih =>
    cases i with
    | zero =>
      simp only [List.getElem?_cons_zero, Option.some_inj] at h
      simp [h]
    | succ k =>
      simp only [List.getElem?_cons_succ] at h
      show x :: t.set k a = x :: t
      rw [ih k h]

theorem cons_set_perm {α : Type} (l : List α) (m : Nat) (a b : α)
    (h : l[m]? = some b) : (b :: l.set m a).Perm (a :: l) := by
  induction l generalizing m with
  | nil => simp at h
  | cons x t ih =>
    cases m with
    | zero =>
      simp only [List.getElem?_cons_zero, Option.some_inj] at h
      subst h
      exact List.Perm.swap a x t
    | succ k =>
      simp only [List.getElem?_cons_succ] at h
      show (b :: x :: t.set k a).Perm (a :: x :: t)
      exact (List.Perm.swap x b _).trans (((ih k h).cons x).trans (List.Perm.swap a x t))

theorem setset_perm {α : Type} (l : List α) (i j : Nat) (a b : α)
    (hi : l[i]? = some a) (hj : l[j]? = some b) :
    ((l.set i b).set j a).Perm l := by
  induction l generalizing i j with
  | nil => simp at hi
  | cons x t ih =>
    cases i with
    | zero =>
      simp only [List.getElem?_cons_zero, Option.some_inj] at hi
      subst hi
      cases j with
      | zero =>
        simp only [List.getElem?_cons_zero, Option.some_inj] at hj
        subst hj
        exact .refl _
      | succ k =>
        simp only [List.getElem?_cons_succ] at hj
        show (b :: t.set k x).Perm (x :: t)
        exact cons_set_perm t k x b hj
    | succ m =>
      simp only [List.getElem?_cons_succ] at hi
      cases j with
      | zero =>
        simp only [List.getElem?_cons_zero, Option.some_inj] at hj
        subst hj
        show (a :: t.set m x).Perm (x :: t)
        exact cons_set_perm t m x a hi
      | succ k =>
        simp only [List.getElem?_cons_succ] at hj
        show (x :: (t.set m b).set k a).Perm (x :: t)
        exact (ih m k hi hj).cons x

theorem lswap_perm {α : Type} (l : List α) (i j : Nat) : (lswap l i j).Perm l := by
  unfold lswap
  cases hi : l[i]? with
  | none => exact .refl l
  | some a =>
    cases hj : l[j]? with
    | none => exact .refl l
    | some b => exact setset_perm l i j a b hi hj

theorem lswap_getElem_of_ne {α : Type} (l : List α) (i j k : Nat)
    (hki : k ≠ i) (hkj : k ≠ j) : (lswap l i j)[k]? = l[k]? := by
  unfold lswap
  cases hi : l[i]? with
  | none => rfl
  | some a =>
    cases hj : l[j]? with
    | none => rfl
    | some b =>
      rw [List.getElem?_set_ne (Ne.symm hkj), List.getElem?_set_ne (Ne.symm hki)]

theorem heapDownChild_lt (l : List Transaction) (i n : Nat) (h : 2 * i + 1 < n) :
    heapDownChild l i n < n := by
  unfold heapDownChild
  split
  · rename_i hc
    have := ((Bool.and_eq_true _ _).mp hc).1
    exact of_decide_eq_true this
  · exact h

theorem heapDownGo_perm (fuel : Nat) : ∀ (l : List Transaction) (i n : Nat),
    ((heapDownGo l i n fuel).1).Perm l := by
  induction fuel with
  | zero => intro l i n; exact .refl l
  | succ fuel ih =>
    intro l i n
    simp only [heapDownGo]
    split
    · split
      · exact (ih _ _ _).trans (lswap_perm _ _ _)
      · exact .refl l
    · exact .refl l

theorem heapDownGo_getElem_of_le (fuel : Nat) :
    ∀ (l : List Transaction) (i n k : Nat), n ≤ k →
      ((heapDownGo l i n fuel).1)[k]? = l[k]? := by
  induction fuel with
  | zero => intro l i n k _; rfl
  | succ fuel ih =>
    intro l i n k hk
    simp only [heapDownGo]
    split
    · split
      · rename_i hn _
        have hchild := heapDownChild_lt l i n hn
        rw [ih _ _ _ _ hk, lswap_getElem_of_ne]
        · omega
        · omega
      · rfl
    · rfl

theorem heapUpGo_perm (fuel : Nat) : ∀ (l : List Transaction) (j : Nat),
    (heapUpGo l j fuel).Perm l := by
  induction fuel with
  | zero => intro l j; exact .refl l
  | succ fuel ih =>
    intro l j
    simp only [heapUpGo]
    split
    · exact .refl l
    · exact (ih _ _).trans (lswap_perm _ _ _)

theorem heapUp_perm (l : List Transaction) (j : Nat) : (heapUp l j).Perm l :=
  heapUpGo_perm _ l j

theorem heapDown_perm (l : List Transaction) (i n : Nat) :
    ((heapDown l i n).1).Perm l :=
  heapDownGo_perm n l i n

theorem heapInitAux_perm (n : Nat) : ∀ (k : Nat) (l : List Transaction),
    (heapInitAux n k l).Perm l := by
  intro k
  induction k with
  | zero => intro l; exact .refl l
  | succ k ih =>
    intro l
    exact (ih _).trans (heapDown_perm l k n)

theorem heapInit_perm (l : List Transaction) : (heapInit l).Perm l :=
  heapInitAux_perm _ _ l

theorem heapFix_perm (l : List Transaction) (i : Nat) : (heapFix l i).Perm l := by
  unfold heapFix
  split
  · exact heapDown_perm l i l.length
  · exact (heapUp_perm _ _).trans (heapDown_perm l i l.length)


theorem drop_last_of_getElem {α : Type} (l : List α) (n : Nat) (x : α)
    (hlen : l.length = n + 1) (hx : l[n]? = some x) : l.drop n = [x] := by
  induction l generalizing n with
  | nil => simp at hlen
  | cons y t ih =>
    cases n with
    | zero =>
      simp only [List.length_cons] at hlen
      have ht : t = [] := List.length_eq_zero.mp (by omega)
      simp only [List.getElem?_cons_zero, Option.some_inj] at hx
      subst hx
      simp [ht]
    | succ k =>
      simp only [List.length_cons] at hlen
      simp only [List.getElem?_cons_succ] at hx
      show t.drop k = [x]
      exact ih k (by omega) hx

theorem take_last_perm (l2 : List Transaction) (n : Nat) (x : Transaction)
    (t : List Transaction) (hperm : l2.Perm (x :: t)) (hlen : l2.length = n + 1)
    (hx : l2[n]? = some x) : (l2.take n).Perm t := by
  have hdecomp : l2 = l2.take n ++ [x] := by
    conv_lhs => rw [← List.take_append_drop n l2]
    rw [drop_last_of_getElem l2 n x hlen hx]
  have h1 : (l2.take n ++ [x]).Perm (x :: t) := by rw [← hdecomp]; exact hperm
  have h2 : (x :: l2.take n).Perm (x :: t) :=
    (List.perm_append_singleton x _).symm.trans h1
  exact h2.cons_inv

/-- `heap.Pop` removes exactly the root: the remaining contents are a
permutation of the old heap minus its first element. -/
theorem heapPopList_perm (x : Transaction) (t : List Transaction) :
    ((heapPopList (x :: t)).1).Perm t := by
  have hrepr : (heapPopList (x :: t)).1
      = ((heapDownGo (lswap (x :: t) 0 t.length) 0 t.length t.length).1).take t.length :=
    rfl
  rw [hrepr]
  have hnl : t.length < (x :: t).length := by simp
  have hl1perm : (lswap (x :: t) 0 t.length).Perm (x :: t) := lswap_perm _ 0 t.length
  have hl1n : (lswap (x :: t) 0 t.length)[t.length]? = some x := by
    have hb : (x :: t)[t.length]? = some ((x :: t).get ⟨t.length, hnl⟩) := by
      rw [List.getElem?_eq_getElem hnl]
      rfl
    unfold lswap
    rw [List.getElem?_cons_zero, hb]
    exact List.getElem?_set_self (by simp)
  have h2perm : ((heapDownGo (lswap (x :: t) 0 t.length) 0 t.length t.length).1).Perm
      (x :: t) := (heapDownGo_perm t.length _ 0 t.length).trans hl1perm
  have hl2n : ((heapDownGo (lswap (x :: t) 0 t.length) 0 t.length t.length).1)[t.length]?
      = some x := by
    rw [heapDownGo_getElem_of_le t.length _ 0 t.length t.length le_rfl]
    exact hl1n
  have hl2len : ((heapDownGo (lswap (x :: t) 0 t.length) 0 t.length t.length).1).length
      = t.length + 1 := by
    rw [h2perm.length_eq]
    rfl
  exact take_last_perm _ t.length x t h2perm hl2len hl2n

/-! ### Association-list facts for the Go map -/

theorem alookup_mem (m : List (Address × List Transaction)) (a : Address)
    (l : List Transaction) (h : alookup m a = some l) : (a, l) ∈ m := by
  induction m with
  | nil => cases h
  | cons p rest ih =>
    unfold alookup at h
    split at h
    · rename_i heq
      cases h
      exact List.mem_cons.mpr (Or.inl (by rw [← heq]))
    · exact List.mem_cons_of_mem _ (ih h)

theorem alookup_ainsert_self (m : List (Address × List Transaction)) (a : Address)
    (v : List Transaction) : alookup (ainsert m a v) a = some v := by
  induction m with
  | nil => simp [ainsert, alookup]
  | cons p rest ih =>
    unfold ainsert
    split
    · simp [alookup]
    · rename_i hne
      unfold alookup
      rw [if_neg hne]
      exact ih

theorem alookup_ainsert_other (m : List (Address × List Transaction)) (a b : Address)
    (v : List Transaction) (hba : b ≠ a) :
    alookup (ainsert m a v) b = alookup m b := by
  induction m with
  | nil => simp [ainsert, alookup, Ne.symm hba]
  | cons p rest ih =>
    unfold ainsert
    split
    · rename_i heq
      simp only [alookup]
      rw [if_neg (fun hh : a = b => hba hh.symm),
        if_neg (fun hh : p.1 = b => hba ((heq ▸ hh : a = b)).symm)]
    · simp only [alookup]
      split
      · rfl
      · exact ih

theorem mem_ainsert (m : List (Address × List Transaction)) (a : Address)
    (v : List Transaction) (p : Address × List Transaction)
    (h : p ∈ ainsert m a v) : p = (a, v) ∨ p ∈ m := by
  induction m with
  | nil => simpa [ainsert] using h
  | cons q rest ih =>
    unfold ainsert at h
    split at h
    · rcases List.mem_cons.mp h with h | h
      · exact Or.inl h
      · exact Or.inr (List.mem_cons_of_mem _ h)
    · rcases List.mem_cons.mp h with h | h
      · exact Or.inr (List.mem_cons.mpr (Or.inl h))
      · rcases ih h with h | h
        · exact Or.inl h
        · exact Or.inr (List.mem_cons_of_mem _ h)

theorem mem_keys_ainsert (m : List (Address × List Transaction)) (a b : Address)
    (v : List Transaction) (h : b ∈ (ainsert m a v).map Prod.fst) :
    b ∈ m.map Prod.fst ∨ b = a := by
  simp only [List.mem_map] at h
  obtain ⟨p, hp, hpb⟩ := h
  rcases mem_ainsert m a v p hp with h | h
  · right
    rw [← hpb, h]
  · left
    exact List.mem_map.mpr ⟨p, h, hpb⟩

theorem keys_nodup_ainsert (m : List (Address × List Transaction)) (a : Address)
    (v : List Transaction) (h : (m.map Prod.fst).Nodup) :
    ((ainsert m a v).map Prod.fst).Nodup := by
  induction m with
  | nil => simp [ainsert]
  | cons p rest ih =>
    unfold ainsert
    split
    · rename_i heq
      simpa [← heq] using h
    · rename_i hne
      simp only [List.map_cons, List.nodup_cons] at h ⊢
      refine ⟨fun hmem => ?_, ih h.2⟩
      rcases mem_keys_ainsert rest a p.1 v hmem with hm | hm
      · exact h.1 hm
      · exact hne hm

/-! ### The selector invariant (claim C2) and its preservation -/

/-- Every queued transaction is keyed under its recovered sender. -/
def TxsKeyed (signer : Transaction → Address)
    (m : List (Address × List Transaction)) : Prop :=
  ∀ p ∈ m, ∀ tx ∈ p.2, signer tx = p.1

/-- Every per-account queue is nonce-sorted. -/
def TxsSorted (m : List (Address × List Transaction)) : Prop :=
  ∀ p ∈ m, p.2.Pairwise (fun a b => a.data.AccountNonce ≤ b.data.AccountNonce)

/-- The map's keys are distinct (always true of a Go map; the assoc-list
model needs it stated). -/
def KeysNodup (m : List (Address × List Transaction)) : Prop :=
  (m.map Prod.fst).Nodup

/-- A head is the lowest-nonce not-yet-emitted transaction of its account:
it bounds everything still queued under its recovered sender. -/
def HeadMin (signer : Transaction → Address)
    (m : List (Address × List Transaction)) (h : Transaction) : Prop :=
  ∀ l, alookup m (signer h) = some l →
    ∀ tx ∈ l, h.data.AccountNonce ≤ tx.data.AccountNonce

/-- The claim C2 state invariant: well-keyed sorted queues, at most one head
per recovered sender, and each head minimal for its account. -/
structure SelInv (signer : Transaction → Address)
    (t : TransactionsByPriceAndNonce) : Prop where
  keyed : TxsKeyed signer t.txs
  sorted : TxsSorted t.txs
  knodup : KeysNodup t.txs
  hnodup : (t.heads.map signer).Nodup
  hmin : ∀ h ∈ t.heads, HeadMin signer t.txs h

theorem SelInv_Shift (signer : Transaction → Address)
    (t t' : TransactionsByPriceAndNonce) (hinv : SelInv signer t)
    (h : t.Shift signer = some t') : SelInv signer t' := by
  obtain ⟨hkeyed, hsorted, hknodup, hhnodup, hhmin⟩ := hinv
  unfold TransactionsByPriceAndNonce.Shift at h
  cases ht : t.heads with
  | nil =>
    rw [ht] at h
    cases h
  | cons h0 hrest =>
    rw [ht] at h
    rw [ht] at hhnodup
    simp only [List.map_cons, List.nodup_cons] at hhnodup
    have hnotin : signer h0 ∉ hrest.map signer := hhnodup.1
    have hrestnodup : (hrest.map signer).Nodup := hhnodup.2
    dsimp only at h
    cases hq : alookup t.txs (signer h0) with
    | none =>
      rw [hq] at h
      cases h
      refine ⟨hkeyed, hsorted, hknodup, ?_, ?_⟩
      · exact ((heapPopList_perm h0 hrest).map signer).symm.nodup hrestnodup
      · intro hd hmem
        exact hhmin hd (ht ▸ List.mem_cons_of_mem h0
          ((heapPopList_perm h0 hrest).mem_iff.mp hmem))
    | some q =>
      cases q with
      | nil =>
        rw [hq] at h
        cases h
        refine ⟨hkeyed, hsorted, hknodup, ?_, ?_⟩
        · exact ((heapPopList_perm h0 hrest).map signer).symm.nodup hrestnodup
        · intro hd hmem
          exact hhmin hd (ht ▸ List.mem_cons_of_mem h0
            ((heapPopList_perm h0 hrest).mem_iff.mp hmem))
      | cons q0 qrest =>
        rw [hq] at h
        cases h
        have hentry : (signer h0, q0 :: qrest) ∈ t.txs := alookup_mem _ _ _ hq
        have hq0sender : signer q0 = signer h0 :=
          hkeyed _ hentry q0 (List.mem_cons_self _ _)
        have hq0min : ∀ tx ∈ qrest, q0.data.AccountNonce ≤ tx.data.AccountNonce :=
          (List.pairwise_cons.mp (hsorted _ hentry)).1
        have hheadsperm : (heapFix ((h0 :: hrest).set 0 q0) 0).Perm (q0 :: hrest) :=
          heapFix_perm _ 0
        refine ⟨?_, ?_, ?_, ?_, ?_⟩
        · intro p hp tx htx
          rcases mem_ainsert _ _ _ _ hp with hp | hp
          · cases hp
            exact hkeyed _ hentry tx (List.mem_cons_of_mem _ htx)
          · exact hkeyed p hp tx htx
        · intro p hp
          rcases mem_ainsert _ _ _ _ hp with hp | hp
          · cases hp
            exact (List.pairwise_cons.mp (hsorted _ hentry)).2
          · exact hsorted p hp
        · exact keys_nodup_ainsert _ _ _ hknodup
        · refine (hheadsperm.map signer).symm.nodup ?_
          simp only [List.map_cons, List.nodup_cons, hq0sender]
          exact ⟨hnotin, hrestnodup⟩
        · intro hd hmem
          have hmem' := hheadsperm.mem_iff.mp hmem
          rcases List.mem_cons.mp hmem' with hd0 | hdrest
          · subst hd0
            intro l hl tx htx
            rw [hq0sender, alookup_ainsert_self] at hl
            cases hl
            exact hq0min tx htx
          · have hne : signer hd ≠ signer h0 := by
              intro hcontra
              exact hnotin (List.mem_map.mpr ⟨hd, hdrest, hcontra⟩)
            intro l hl tx htx
            rw [alookup_ainsert_other _ _ _ _ hne] at hl
            exact hhmin hd (ht ▸ List.mem_cons_of_mem h0 hdrest) l hl tx htx

theorem SelInv_Pop (signer : Transaction → Address)
    (t t' : TransactionsByPriceAndNonce) (hinv : SelInv signer t)
    (h : t.Pop = some t') : SelInv signer t' := by
  obtain ⟨hkeyed, hsorted, hknodup, hhnodup, hhmin⟩ := hinv
  unfold TransactionsByPriceAndNonce.Pop at h
  cases ht : t.heads with
  | nil =>
    rw [ht] at h
    cases h
  | cons h0 hrest =>
    rw [ht] at h
    cases h
    rw [ht] at hhnodup
    simp only [List.map_cons, List.nodup_cons] at hhnodup
    refine ⟨hkeyed, hsorted, hknodup, ?_, ?_⟩
    · exact ((heapPopList_perm h0 hrest).map signer).symm.nodup hhnodup.2
    · intro hd hmem
      exact hhmin hd (ht ▸ List.mem_cons_of_mem h0
        ((heapPopList_perm h0 hrest).mem_iff.mp hmem))

theorem constructFold_inv (signer : Transaction → Address) :
    ∀ (ks : List Address) (m : List (Address × List Transaction))
      (hs : List Transaction),
      TxsKeyed signer m → TxsSorted m → KeysNodup m →
      (hs.map signer).Nodup →
      (∀ h ∈ hs, HeadMin signer m h) →
      (∀ k ∈ ks, k ∉ hs.map signer) →
      ks.Nodup →
      TxsKeyed signer (ks.foldl (constructStep signer) (m, hs)).1 ∧
      TxsSorted (ks.foldl (constructStep signer) (m, hs)).1 ∧
      KeysNodup (ks.foldl (constructStep signer) (m, hs)).1 ∧
      ((ks.foldl (constructStep signer) (m, hs)).2.map signer).Nodup ∧
      (∀ h ∈ (ks.foldl (constructStep signer) (m, hs)).2,
        HeadMin signer (ks.foldl (constructStep signer) (m, hs)).1 h) := by
  intro ks
  induction ks with
  | nil =>
    intro m hs hkeyed hsorted hknodup hhnodup hhmin _ _
    exact ⟨hkeyed, hsorted, hknodup, hhnodup, hhmin⟩
  | cons k ks ih =>
    intro m hs hkeyed hsorted hknodup hhnodup hhmin hdisj hksnodup
    have hnotin : k ∉ hs.map signer := hdisj k (List.mem_cons_self _ _)
    have hknotks : k ∉ ks := (List.nodup_cons.mp hksnodup).1
    have hksnodup' : ks.Nodup := (List.nodup_cons.mp hksnodup).2
    show
      TxsKeyed signer (ks.foldl (constructStep signer) (constructStep signer (m, hs) k)).1 ∧
      TxsSorted (ks.foldl (constructStep signer) (constructStep signer (m, hs) k)).1 ∧
      KeysNodup (ks.foldl (constructStep signer) (constructStep signer (m, hs) k)).1 ∧
      ((ks.foldl (constructStep signer) (constructStep signer (m, hs) k)).2.map signer).Nodup ∧
      (∀ h ∈ (ks.foldl (constructStep signer) (constructStep signer (m, hs) k)).2,
        HeadMin signer (ks.foldl (constructStep signer) (constructStep signer (m, hs) k)).1 h)
    cases hq : alookup m k with
    | none =>
      have hstep : constructStep signer (m, hs) k = (m, hs) := by
        simp [constructStep, hq]
      rw [hstep]
      exact ih m hs hkeyed hsorted hknodup hhnodup hhmin
        (fun k' hk' => hdisj k' (List.mem_cons_of_mem _ hk')) hksnodup'
    | some q =>
      cases q with
      | nil =>
        have hstep : constructStep signer (m, hs) k = (m, hs) := by
          simp [constructStep, hq]
        rw [hstep]
        exact ih m hs hkeyed hsorted hknodup hhnodup hhmin
          (fun k' hk' => hdisj k' (List.mem_cons_of_mem _ hk')) hksnodup'
      | cons q0 qrest =>
        have hentry : (k, q0 :: qrest) ∈ m := alookup_mem _ _ _ hq
        have hq0s : signer q0 = k := hkeyed _ hentry q0 (List.mem_cons_self _ _)
        have hstep : constructStep signer (m, hs) k = (ainsert m k qrest, hs ++ [q0]) := by
          simp [constructStep, hq, hq0s]
        rw [hstep]
        apply ih
        · intro p hp tx htx
          rcases mem_ainsert _ _ _ _ hp with hp | hp
          · cases hp
            exact hkeyed _ hentry tx (List.mem_cons_of_mem _ htx)
          · exact hkeyed p hp tx htx
        · intro p hp
          rcases mem_ainsert _ _ _ _ hp with hp | hp
          · cases hp
            exact (List.pairwise_cons.mp (hsorted _ hentry)).2
          · exact hsorted p hp
        · exact keys_nodup_ainsert _ _ _ hknodup
        · rw [List.map_append]
          refine (List.perm_append_singleton _ _).symm.nodup ?_
          refine List.nodup_cons.mpr ⟨?_, hhnodup⟩
          simpa [hq0s] using hnotin
        · intro h hh
          rcases List.mem_append.mp hh with hh | hh
          · have hne : signer h ≠ k := by
              intro hc
              exact hnotin (hc ▸ List.mem_map.mpr ⟨h, hh, rfl⟩)
            intro l hl tx htx
            rw [alookup_ainsert_other _ _ _ _ hne] at hl
            exact hhmin h hh l hl tx htx
          · have hh0 : h = q0 := by simpa using hh
            subst hh0
            intro l hl tx htx
            rw [hq0s, alookup_ainsert_self] at hl
            cases hl
            exact (List.pairwise_cons.mp (hsorted _ hentry)).1 tx htx
        · intro k' hk'
          rw [List.map_append]
          intro hc
          rcases List.mem_append.mp hc with hc | hc
          · exact hdisj k' (List.mem_cons_of_mem _ hk') hc
          · have : k' = k := by simpa [hq0s] using hc
            exact hknotks (this ▸ hk')
        · exact hksnodup'

theorem SelInv_New (signer : Transaction → Address)
    (init : List (Address × List Transaction))
    (hkeyed : TxsKeyed signer init) (hsorted : TxsSorted init)
    (hknodup : KeysNodup init) :
    SelInv signer (NewTransactionsByPriceAndNonce signer init) := by
  have hmain := constructFold_inv signer (init.map Prod.fst) init []
    hkeyed hsorted hknodup (by simp) (by simp) (by simp) hknodup
  have hfold : (init.map Prod.fst).foldl (constructStep signer) (init, [])
      = init.foldl (fun st p => constructStep signer st p.1) (init, []) :=
    List.foldl_map _ _ _ _
  rw [hfold] at hmain
  unfold NewTransactionsByPriceAndNonce
  refine ⟨hmain.1, hmain.2.1, hmain.2.2.1, ?_, ?_⟩
  · exact ((heapInit_perm _).map signer).symm.nodup hmain.2.2.2.1
  · intro h hh
    exact hmain.2.2.2.2 h ((heapInit_perm _).mem_iff.mp hh)

theorem SelInv_runOps (signer : Transaction → Address) :
    ∀ (ops : List SelOp) (t t' : TransactionsByPriceAndNonce),
      SelInv signer t → runOps signer t ops = some t' → SelInv signer t' := by
  intro ops
  induction ops with
  | nil =>
    intro t t' h hr
    cases hr
    exact h
  | cons op ops ih =>
    intro t t' h hr
    unfold runOps at hr
    cases hstep : applyOp signer t op with
    | none => rw [hstep] at hr; cases hr
    | some t1 =>
      rw [hstep] at hr
      refine ih t1 t' ?_ hr
      cases op with
      | shift => exact SelInv_Shift signer t t1 h hstep
      | pop => exact SelInv_Pop signer t t1 h hstep

/-- Claim C2 amended to well-keyed input: in every selector state reachable
from construction on a map whose queues are nonce-sorted and keyed under
their transactions' recovered senders (distinct keys), the heap holds at most
one transaction per recovered sender, and each head is its account's
lowest-nonce not-yet-emitted transaction (it bounds the account's whole
remaining queue). -/
theorem heads_one_per_account (signer : Transaction → Address)
    (init : List (Address × List Transaction)) (ops : List SelOp)
    (t' : TransactionsByPriceAndNonce)
    (hkeyed : TxsKeyed signer init) (hsorted : TxsSorted init)
    (hknodup : KeysNodup init)
    (hrun : runOps signer (NewTransactionsByPriceAndNonce signer init) ops = some t') :
    ((t'.heads.map signer).Nodup) ∧
    (∀ h ∈ t'.heads, ∀ l, alookup t'.txs (signer h) = some l →
      ∀ tx ∈ l, h.data.AccountNonce ≤ tx.data.AccountNonce) := by
  have hinv := SelInv_runOps signer ops _ t'
    (SelInv_New signer init hkeyed hsorted hknodup) hrun
  exact ⟨hinv.hnodup, hinv.hmin⟩

/-! ### Concrete selector instances

`cex…`: the caller's grouping disagrees with the recovered senders — both
queued transactions recover to sender `⟨5⟩`, but the caller keyed one of them
under `⟨7⟩`.  `w…`: a well-keyed two-account instance (the recovered sender is
encoded in the `GasLimit` field). -/

def cexMeta : TransactionMeta := ⟨none, 0, none, .sequencer, none, none, []⟩

def cexSigner : Transaction → Address := fun _ => ⟨5⟩

def cexTx1 : Transaction := ⟨⟨0, 5, 0, none, 0, [], 27, 1, 1⟩, cexMeta, none, none⟩

def cexTx2 : Transaction := ⟨⟨0, 9, 0, none, 0, [], 27, 1, 1⟩, cexMeta, none, none⟩

def cexInit : List (Address × List Transaction) := [(⟨5⟩, [cexTx2]), (⟨7⟩, [cexTx1])]

def wSigner : Transaction → Address := fun t => ⟨t.data.GasLimit⟩

def wTxA1 : Transaction := ⟨⟨0, 5, 1, none, 0, [], 27, 1, 1⟩, cexMeta, none, none⟩

def wTxA2 : Transaction := ⟨⟨1, 3, 1, none, 0, [], 27, 1, 1⟩, cexMeta, none, none⟩

def wTxB1 : Transaction := ⟨⟨0, 9, 2, none, 0, [], 27, 1, 1⟩, cexMeta, none, none⟩

def wInit : List (Address × List Transaction) := [(⟨1⟩, [wTxA1, wTxA2]), (⟨2⟩, [wTxB1])]

def wT2 : TransactionsByPriceAndNonce :=
  { txs := [(⟨1⟩, [wTxA2]), (⟨2⟩, [])], heads := [wTxA1] }

instance (signer : Transaction → Address) (m : List (Address × List Transaction)) :
    Decidable (TxsKeyed signer m) :=
  List.decidableBAll _ m

instance (m : List (Address × List Transaction)) : Decidable (TxsSorted m) :=
  List.decidableBAll _ m

instance (m : List (Address × List Transaction)) : Decidable (KeysNodup m) :=
  List.nodupDecidable _

/-- A successful `Peek` exhibits the heap's head. -/
theorem Peek_eq_some (t : TransactionsByPriceAndNonce) (h : Transaction)
    (hp : t.Peek = some h) : ∃ rest, t.heads = h :: rest := by
  unfold TransactionsByPriceAndNonce.Peek at hp
  cases ht : t.heads with
  | nil =>
    rw [ht] at hp
    simp at hp
  | cons a l =>
    rw [ht] at hp
    simp only [List.getElem?_cons_zero, Option.some_inj] at hp
    subst hp
    exact ⟨l, ht ▸ rfl⟩

/-- Counterexample to claim C2 as stated: on a map whose caller-supplied
grouping disagrees with the recovered senders, construction alone already
puts two transactions of the same recovered sender into the heap. -/
theorem heads_one_per_account_counterexample :
    ¬ (((NewTransactionsByPriceAndNonce cexSigner cexInit).heads.map cexSigner).Nodup) := by
  decide

/-- Witness for the amended C2 at the well-keyed instance. -/
theorem heads_one_per_account_witness :
    (TxsKeyed wSigner wInit ∧ TxsSorted wInit ∧ KeysNodup wInit) ∧
    (((NewTransactionsByPriceAndNonce wSigner wInit).heads.map wSigner).Nodup) :=
  ⟨⟨by decide, by decide, by decide⟩,
   (heads_one_per_account wSigner wInit [] _ (by decide) (by decide) (by decide) rfl).1⟩

/-! ### Claim C6: `Pop` abandons the whole account -/

/-- No heap head belongs to account `X`. -/
def NoSenderInHeads (signer : Transaction → Address) (X : Address)
    (t : TransactionsByPriceAndNonce) : Prop :=
  ∀ h ∈ t.heads, signer h ≠ X

theorem NoSender_Shift (signer : Transaction → Address) (X : Address)
    (t t' : TransactionsByPriceAndNonce) (hinv : SelInv signer t)
    (hns : NoSenderInHeads signer X t) (h : t.Shift signer = some t') :
    NoSenderInHeads signer X t' := by
  unfold TransactionsByPriceAndNonce.Shift at h
  cases ht : t.heads with
  | nil =>
    rw [ht] at h
    cases h
  | cons h0 hrest =>
    rw [ht] at h
    dsimp only at h
    cases hq : alookup t.txs (signer h0) with
    | none =>
      rw [hq] at h
      cases h
      intro hd hmem
      exact hns hd (ht ▸ List.mem_cons_of_mem h0
        ((heapPopList_perm h0 hrest).mem_iff.mp hmem))
    | some q =>
      cases q with
      | nil =>
        rw [hq] at h
        cases h
        intro hd hmem
        exact hns hd (ht ▸ List.mem_cons_of_mem h0
          ((heapPopList_perm h0 hrest).mem_iff.mp hmem))
      | cons q0 qrest =>
        rw [hq] at h
        cases h
        have hentry : (signer h0, q0 :: qrest) ∈ t.txs := alookup_mem _ _ _ hq
        have hq0sender : signer q0 = signer h0 :=
          hinv.keyed _ hentry q0 (List.mem_cons_self _ _)
        intro hd hmem
        have hmem' := (heapFix_perm ((h0 :: hrest).set 0 q0) 0).mem_iff.mp hmem
        rcases List.mem_cons.mp hmem' with hd0 | hdrest
        · subst hd0
          rw [hq0sender]
          exact hns h0 (ht ▸ List.mem_cons_self _ _)
        · exact hns hd (ht ▸ List.mem_cons_of_mem h0 hdrest)

theorem NoSender_Pop (signer : Transaction → Address) (X : Address)
    (t t' : TransactionsByPriceAndNonce)
    (hns : NoSenderInHeads signer X t) (h : t.Pop = some t') :
    NoSenderInHeads signer X t' := by
  unfold TransactionsByPriceAndNonce.Pop at h
  cases ht : t.heads with
  | nil =>
    rw [ht] at h
    cases h
  | cons h0 hrest =>
    rw [ht] at h
    cases h
    intro hd hmem
    exact hns hd (ht ▸ List.mem_cons_of_mem h0
      ((heapPopList_perm h0 hrest).mem_iff.mp hmem))

theorem NoSender_runOps (signer : Transaction → Address) (X : Address) :
    ∀ (ops : List SelOp) (t t' : TransactionsByPriceAndNonce),
      SelInv signer t → NoSenderInHeads signer X t →
      runOps signer t ops = some t' →
      SelInv signer t' ∧ NoSenderInHeads signer X t' := by
  intro ops
  induction ops with
  | nil =>
    intro t t' hinv hns hr
    cases hr
    exact ⟨hinv, hns⟩
  | cons op ops ih =>
    intro t t' hinv hns hr
    unfold runOps at hr
    cases hstep : applyOp signer t op with
    | none => rw [hstep] at hr; cases hr
    | some t1 =>
      rw [hstep] at hr
      refine ih t1 t' ?_ ?_ hr
      · cases op with
        | shift => exact SelInv_Shift signer t t1 hinv hstep
        | pop => exact SelInv_Pop signer t t1 hinv hstep
      · cases op with
        | shift => exact NoSender_Shift signer X t t1 hinv hns hstep
        | pop => exact NoSender_Pop signer X t t1 hns hstep

/-- Claim C6 amended to well-keyed input: once `Pop` fires while some
account's transaction is the heap head, no later `Peek` in any continuation
ever returns a transaction of that account. -/
theorem Pop_abandons_account (signer : Transaction → Address)
    (init : List (Address × List Transaction)) (ops1 ops2 : List SelOp)
    (t1 t2 t3 : TransactionsByPriceAndNonce) (h0 hLater : Transaction)
    (hkeyed : TxsKeyed signer init) (hsorted : TxsSorted init)
    (hknodup : KeysNodup init)
    (hrun1 : runOps signer (NewTransactionsByPriceAndNonce signer init) ops1 = some t1)
    (hpeek : t1.Peek = some h0)
    (hpop : t1.Pop = some t2)
    (hrun2 : runOps signer t2 ops2 = some t3)
    (hpeek3 : t3.Peek = some hLater) :
    signer hLater ≠ signer h0 := by
  have hinv1 : SelInv signer t1 := SelInv_runOps signer ops1 _ t1
    (SelInv_New signer init hkeyed hsorted hknodup) hrun1
  obtain ⟨hrest, ht1⟩ := Peek_eq_some t1 h0 hpeek
  have hinv2 : SelInv signer t2 := SelInv_Pop signer t1 t2 hinv1 hpop
  have hns2 : NoSenderInHeads signer (signer h0) t2 := by
    unfold TransactionsByPriceAndNonce.Pop at hpop
    rw [ht1] at hpop
    cases hpop
    intro hd hmem
    have hdrest : hd ∈ hrest := (heapPopList_perm h0 hrest).mem_iff.mp hmem
    have := hinv1.hnodup
    rw [ht1] at this
    simp only [List.map_cons, List.nodup_cons] at this
    intro hc
    exact this.1 (hc ▸ List.mem_map.mpr ⟨hd, hdrest, rfl⟩)
  have hfinal := NoSender_runOps signer (signer h0) ops2 t2 t3 hinv2 hns2 hrun2
  have hmem3 : hLater ∈ t3.heads := by
    obtain ⟨rest3, ht3⟩ := Peek_eq_some t3 hLater hpeek3
    rw [ht3]
    exact List.mem_cons_self _ _
  exact hfinal.2 hLater hmem3

/-- Counterexample to claim C6 as stated: with the ill-keyed map of
`heads_one_per_account_counterexample`, `Pop` fires while a transaction of
recovered sender `⟨5⟩` is the head, yet the very next `Peek` returns another
transaction of sender `⟨5⟩`. -/
theorem Pop_abandons_account_counterexample :
    (NewTransactionsByPriceAndNonce cexSigner cexInit).Peek = some cexTx2 ∧
    cexSigner cexTx2 = ⟨5⟩ ∧
    Option.bind (NewTransactionsByPriceAndNonce cexSigner cexInit).Pop
      TransactionsByPriceAndNonce.Peek = some cexTx1 ∧
    cexSigner cexTx1 = ⟨5⟩ := by
  decide

/-- Witness for the amended C6 at the well-keyed instance: `Pop` at the
head `wTxB1` (account `⟨2⟩`); the next `Peek` yields `wTxA1` of account
`⟨1⟩`. -/
theorem Pop_abandons_account_witness :
    (TxsKeyed wSigner wInit ∧ TxsSorted wInit ∧ KeysNodup wInit) ∧
    wSigner wTxA1 ≠ wSigner wTxB1 :=
  ⟨⟨by decide, by decide, by decide⟩,
   Pop_abandons_account wSigner wInit [] [] _ wT2 wT2 wTxB1 wTxA1
     (by decide) (by decide) (by decide) rfl (by decide) (by decide) rfl (by decide)⟩

/-- Claim C10: `Peek` answers nil exactly on the empty heap (and, being a
pure query, never mutates the state — `Peek`'s type returns no state);
`Shift` reads `t.heads[0]` before any emptiness check, so it panics on the
empty heap and succeeds whenever the heap is non-empty. -/
theorem Peek_nil_Shift_precondition (signer : Transaction → Address)
    (t : TransactionsByPriceAndNonce) :
    (t.Peek = none ↔ t.heads = []) ∧
    (t.heads = [] → t.Shift signer = none) ∧
    (t.heads ≠ [] → (t.Shift signer).isSome = true) := by
  refine ⟨⟨?_, ?_⟩, ?_, ?_⟩
  · intro hp
    cases ht : t.heads with
    | nil => rfl
    | cons a l =>
      unfold TransactionsByPriceAndNonce.Peek at hp
      rw [ht] at hp
      simp at hp
  · intro he
    unfold TransactionsByPriceAndNonce.Peek
    rw [he]
    rfl
  · intro he
    unfold TransactionsByPriceAndNonce.Shift
    rw [he]
  · intro hne
    cases ht : t.heads with
    | nil => exact absurd ht hne
    | cons h0 hrest =>
      unfold TransactionsByPriceAndNonce.Shift
      rw [ht]
      dsimp only
      cases alookup t.txs (signer h0) with
      | none => rfl
      | some q =>
        cases q with
        | nil => rfl
        | cons q0 qrest => rfl

/-- Witness for C10 at a non-empty and an empty state. -/
theorem Peek_nil_Shift_precondition_witness :
    (wT2.Peek = none ↔ wT2.heads = []) ∧
    ((wT2.Shift wSigner).isSome = true) ∧
    (TransactionsByPriceAndNonce.mk [] []).Shift wSigner = none :=
  ⟨(Peek_nil_Shift_precondition wSigner wT2).1,
   (Peek_nil_Shift_precondition wSigner wT2).2.2 (by decide),
   (Peek_nil_Shift_precondition wSigner ⟨[], []⟩).2.1 rfl⟩

/-! ### The loop fuel is always sufficient

`heapDownGo` is called with fuel `n` and `heapUpGo` with fuel `j + 1`; the
following two lemmas show any fuel of at least `n - i` (resp. more than `j`)
yields the same result, so the fuelled loops agree with Go's unbounded
loops. -/

theorem heapDownGo_fuel_ge (f1 : Nat) :
    ∀ (f2 : Nat) (l : List Transaction) (i n : Nat),
      n - i ≤ f1 → n - i ≤ f2 → heapDownGo l i n f1 = heapDownGo l i n f2 := by
  induction f1 with
  | zero =>
    intro f2 l i n h1 _
    cases f2 with
    | zero => rfl
    | succ k =>
      simp only [heapDownGo]
      rw [if_neg (by omega)]
  | succ k1 ih =>
    intro f2 l i n h1 h2
    cases f2 with
    | zero =>
      simp only [heapDownGo]
      rw [if_neg (by omega)]
    | succ k2 =>
      simp only [heapDownGo]
      split
      · rename_i hn
        split
        · have hchild : 2 * i + 1 ≤ heapDownChild l i n := by
            unfold heapDownChild
            split <;> omega
          exact ih k2 _ _ _ (by omega) (by omega)
        · rfl
      · rfl

theorem heapUpGo_fuel_ge (f1 : Nat) :
    ∀ (f2 : Nat) (l : List Transaction) (j : Nat),
      j < f1 → j < f2 → heapUpGo l j f1 = heapUpGo l j f2 := by
  induction f1 with
  | zero =>
    intro f2 l j h1 _
    omega
  | succ k1 ih =>
    intro f2 l j h1 h2
    cases f2 with
    | zero => omega
    | succ k2 =>
      simp only [heapUpGo]
      split
      · rfl
      · rename_i hcond
        have hj : (j - 1) / 2 ≠ j := by
          intro hc
          exact hcond (by rw [hc]; simp)
        exact ih k2 _ _ (by omega) (by omega)
